import Mathlib

/-!
Shallow embedding of `src/model_count.c`: a streaming scanner that extracts
string values of the key `"model"` from a JSON-like byte stream, and an
open-chaining hash table that counts occurrences per distinct value.

Bytes are modelled as `Nat` (the values delivered by `fgetc`); streams as
`List Nat`; decoded strings as `List Nat`.  The 64-bit machine counters
(`uint64_t count`, `uint64_t models_seen`) are modelled as `Nat` reduced
modulo `2 ^ 64` at each increment, matching silent wraparound.
-/

set_option autoImplicit false

namespace ModelCount

/-- `2 ^ 64`, the modulus of the C `uint64_t` arithmetic. -/
def U64 : Nat := 18446744073709551616

/-- The bytes of the C string literal `KEY_MODEL = "model"`. -/
def modelKey : List Nat := [109, 111, 100, 101, 108]

/-- C `isspace` in the default locale: space (32) and 9..13. -/
def isSpaceByte (b : Nat) : Bool := b == 32 || (9 ≤ b && b ≤ 13)

/-- C `isxdigit`: decimal digits, `A`-`F`, `a`-`f`. -/
def isHexDigitByte (b : Nat) : Bool :=
  (48 ≤ b && b ≤ 57) || (65 ≤ b && b ≤ 70) || (97 ≤ b && b ≤ 102)

/-! ## Aggregator: the hash table (`Entry`, `HashTable`, `hash_str`,
`table_init`, `table_rehash`, `table_inc` of `model_count.c`) -/

/-- One chain node of the table: `struct Entry` (the `next` pointer is the
tail of the containing chain list). -/
structure Entry where
  key : List Nat
  count : Nat
  deriving DecidableEq, Repr

/-- `HashTable`: the bucket array, its capacity and the number of stored
entries.  `buckets.length = bucket_count` is maintained as an invariant. -/
structure HashTable where
  buckets : List (List Entry)
  bucket_count : Nat
  size : Nat
  deriving DecidableEq, Repr

/-- FNV-1a, 64-bit: `h = offset basis; for each byte: h ^= byte; h *= prime`,
with the multiplication wrapping modulo `2 ^ 64` (`hash_str`). -/
def hash_str (s : List Nat) : Nat :=
  s.foldl (fun h b => ((h ^^^ (b % 256)) * 1099511628211) % U64) 1469598103934665603

/-- `table_init`: `bucket_count` buckets, all empty, size 0. -/
def table_init (n : Nat) : HashTable :=
  { buckets := List.replicate n [], bucket_count := n, size := 0 }

/-- The chain scan of `table_inc`: find the entry with an equal key and
increment its count (wrapping), or report `none` if the chain has no such
entry. -/
def chainInc (key : List Nat) : List Entry → Option (List Entry)
  | [] => none
  | e :: es =>
    if e.key = key then some ({ e with count := (e.count + 1) % U64 } :: es)
    else (chainInc key es).map (fun es' => e :: es')

/-- One step of the redistribution loop of `table_rehash`: prepend entry `e`
into the new bucket selected by its hash modulo the new capacity. -/
def rehashInsert (newCount : Nat) (nb : List (List Entry)) (e : Entry) :
    List (List Entry) :=
  let idx := hash_str e.key % newCount
  nb.set idx (e :: nb.getD idx [])

/-- `table_rehash`: double the capacity and relink every entry (bucket by
bucket, chain head first) into a fresh bucket array; `size` is untouched. -/
def table_rehash (t : HashTable) : HashTable :=
  let newCount := t.bucket_count * 2
  { buckets := t.buckets.flatten.foldl (rehashInsert newCount)
      (List.replicate newCount []),
    bucket_count := newCount,
    size := t.size }

/-- The insertion phase of `table_inc` (everything after the growth check):
either increment the existing entry's count or prepend a fresh entry with
count 1 and bump `size`. -/
def table_inc_core (t : HashTable) (key : List Nat) : HashTable :=
  let idx := hash_str key % t.bucket_count
  let chain := t.buckets.getD idx []
  match chainInc key chain with
  | some chain' => { t with buckets := t.buckets.set idx chain' }
  | none =>
    { t with buckets := t.buckets.set idx ({ key := key, count := 1 } :: chain),
             size := t.size + 1 }

/-- `table_inc`: grow first when `size * 4 ≥ bucket_count * 3`, then insert. -/
def table_inc (t : HashTable) (key : List Nat) : HashTable :=
  table_inc_core
    (if t.size * 4 ≥ t.bucket_count * 3 then table_rehash t else t) key

/-- Chain scan returning the stored count of `key`, or 0 when absent
(the `get_count` observer of `tests/test_model_count.c`). -/
def chainGet (key : List Nat) : List Entry → Nat
  | [] => 0
  | e :: es => if e.key = key then e.count else chainGet key es

/-- `get_count` of the unit tests: hash, select the bucket, scan the chain. -/
def get_count (t : HashTable) (key : List Nat) : Nat :=
  chainGet key (t.buckets.getD (hash_str key % t.bucket_count) [])

/-- Chain scan for membership, exactly the search performed by `table_inc`. -/
def chainMem (key : List Nat) : List Entry → Bool
  | [] => false
  | e :: es => if e.key = key then true else chainMem key es

/-- Whether the table stores an entry for `key` (the search of `table_inc`
and `get_count`, as a Boolean). -/
def memTable (t : HashTable) (key : List Nat) : Bool :=
  chainMem key (t.buckets.getD (hash_str key % t.bucket_count) [])

/-- All live entries of the table, bucket by bucket, chain order preserved. -/
def entries (t : HashTable) : List Entry := t.buckets.flatten

/-- Sum of all stored counts. -/
def sumCounts (t : HashTable) : Nat := ((entries t).map Entry.count).sum

/-! ## Scanner (`skip_ws`, `read_json_string`, `consume_json_value`,
`process_file` of `model_count.c`) -/

/-- `skip_ws`: drop whitespace bytes; return the first non-whitespace byte
(`none` at end of stream) together with the rest of the stream. -/
def skip_ws : List Nat → Option Nat × List Nat
  | [] => (none, [])
  | b :: r => if isSpaceByte b then skip_ws r else (some b, r)

/-- The `switch (esc)` of `read_json_string`: translation of a
non-`u` escape byte. -/
def escChar (e : Nat) : Nat :=
  if e = 34 then 34        -- \"
  else if e = 92 then 92   -- backslash
  else if e = 47 then 47   -- /
  else if e = 98 then 8    -- \b
  else if e = 102 then 12  -- \f
  else if e = 110 then 10  -- \n
  else if e = 114 then 13  -- \r
  else if e = 116 then 9   -- \t
  else e                   -- any other byte passes through

/-- `read_json_string`: decode the bytes after an opening quote up to the
unescaped closing quote.  Returns the decoded bytes and the rest of the
stream, or `none` if the stream ends first or a `\uXXXX` escape lacks four
hex digits.  A valid `\uXXXX` decodes to the placeholder byte `63` (`?`). -/
def read_json_string : List Nat → Option (List Nat × List Nat)
  | [] => none
  | b :: r =>
    if b = 34 then some ([], r)
    else if b = 92 then
      match r with
      | [] => none
      | e :: r2 =>
        if e = 117 then
          match r2 with
          | h1 :: h2 :: h3 :: h4 :: r3 =>
            if isHexDigitByte h1 && isHexDigitByte h2 &&
               isHexDigitByte h3 && isHexDigitByte h4 then
              (read_json_string r3).map (fun p => (63 :: p.1, p.2))
            else none
          | _ => none
        else
          (read_json_string r2).map (fun p => (escChar e :: p.1, p.2))
    else
      (read_json_string r).map (fun p => (b :: p.1, p.2))

/-- The container-skipping loop of `consume_json_value`: consume bytes,
tracking nesting depth and whether the cursor is inside a string literal
(honouring escapes), until depth reaches 0; `none` if the stream ends
first. -/
def skipContainer : Nat → Bool → Bool → List Nat → Option (List Nat)
  | 0, _, _, l => some l
  | _ + 1, _, _, [] => none
  | depth + 1, inString, esc, c :: r =>
    if inString then
      if esc then skipContainer (depth + 1) true false r
      else if c = 92 then skipContainer (depth + 1) true true r
      else if c = 34 then skipContainer (depth + 1) false esc r
      else skipContainer (depth + 1) true esc r
    else
      if c = 34 then skipContainer (depth + 1) true esc r
      else if c = 123 || c = 91 then skipContainer (depth + 2) inString esc r
      else if c = 125 || c = 93 then skipContainer depth inString esc r
      else skipContainer (depth + 1) inString esc r

/-- The scalar-skipping loop of `consume_json_value`: consume bytes until a
delimiter (`,`, `}`, `]`) or whitespace; a delimiter is pushed back (left at
the head of the returned stream), whitespace is consumed.  Never fails. -/
def skipScalar (c : Nat) (l : List Nat) : List Nat :=
  if c = 44 || c = 125 || c = 93 then c :: l
  else if isSpaceByte c then l
  else
    match l with
    | [] => []
    | c2 :: r => skipScalar c2 r

/-- `consume_json_value`: given the first byte of a value (already read),
discard the value: a string is decoded and dropped, a container is skipped
with depth tracking, anything else is consumed as a scalar token. -/
def consume_json_value (first : Nat) (l : List Nat) : Option (List Nat) :=
  if first = 34 then (read_json_string l).map (fun p => p.2)
  else if first = 123 || first = 91 then skipContainer 1 false false l
  else some (skipScalar first l)

/-- The scanning loop of `process_file`, structurally recursive on a fuel
counter.  The loop consumes at least one byte per iteration, so fuel
`stream length + 1` (used by `process_file`) never runs out. -/
def processLoopF : Nat → List Nat → HashTable → Nat →
    Option (HashTable × Nat)
  | 0, _, _, _ => none
  | _ + 1, [], t, n => some (t, n)
  | fuel + 1, c :: s, t, n =>
    if c ≠ 34 then processLoopF fuel s t n
    else
      match read_json_string s with
      | none => none
      | some (key, r1) =>
        match skip_ws r1 with
        | (some 58, r2) =>
          match skip_ws r2 with
          | (none, _) => some (t, n)
          | (some v, r3) =>
            if key = modelKey ∧ v = 34 then
              match read_json_string r3 with
              | none => none
              | some (val, r4) =>
                processLoopF fuel r4 (table_inc t val) ((n + 1) % U64)
            else
              match consume_json_value v r3 with
              | none => none
              | some r4 => processLoopF fuel r4 t n
        | (_, r2) => processLoopF fuel r2 t n

/-- `process_file`: run the scanning loop on the whole stream, starting from
table `t` and values-seen counter `n`; `none` is C's return value 0
(parse failure), `some` is success with the final table and counter. -/
def process_file (s : List Nat) (t : HashTable) (n : Nat) :
    Option (HashTable × Nat) :=
  processLoopF (s.length + 1) s t n

/-! ## Spec-side predicate for claim C6 -/

/-- Whether the byte stream, read from just after an opening quote, contains
a matching unescaped closing quote (a backslash escapes the next byte).
Taken from the spec's wording; used only as a hypothesis. -/
def hasClosingQuote : List Nat → Bool
  | [] => false
  | b :: r =>
    if b = 34 then true
    else if b = 92 then
      match r with
      | [] => false
      | _ :: r2 => hasClosingQuote r2
    else hasClosingQuote r

/-- The continuation condition of the scalar-skipping loop: the byte is
none of `,`, `}`, `]` and not whitespace. -/
def scalarByte (b : Nat) : Bool :=
  !(b == 44 || b == 125 || b == 93 || isSpaceByte b)

/-- The structural invariant of the table maintained by `table_init`,
`table_rehash` and `table_inc`: the bucket array has `bucket_count` slots,
every entry sits in the bucket selected by its hash, keys are globally
distinct, and `size` counts the live entries. -/
structure WF (t : HashTable) : Prop where
  len : t.buckets.length = t.bucket_count
  pos : 0 < t.bucket_count
  idx : ∀ i, ∀ e ∈ t.buckets.getD i [], hash_str e.key % t.bucket_count = i
  nodup : ((entries t).map Entry.key).Nodup
  sz : t.size = (entries t).length

/-- The bytes of the spec's nested-key scenario: the input
`[{"id":1,"serial":"A"},{"id":2,"model":"XYZ","serial":"B"},{"id":3,"nested":{"model":"RDV2"},"serial":"C"}]`. -/
def nestedInput : List Nat :=
  [91, 123, 34, 105, 100, 34, 58, 49, 44, 34, 115, 101, 114, 105, 97, 108, 34,
   58, 34, 65, 34, 125, 44, 123, 34, 105, 100, 34, 58, 50, 44, 34, 109, 111,
   100, 101, 108, 34, 58, 34, 88, 89, 90, 34, 44, 34, 115, 101, 114, 105, 97,
   108, 34, 58, 34, 66, 34, 125, 44, 123, 34, 105, 100, 34, 58, 51, 44, 34,
   110, 101, 115, 116, 101, 100, 34, 58, 123, 34, 109, 111, 100, 101, 108, 34,
   58, 34, 82, 68, 86, 50, 34, 125, 44, 34, 115, 101, 114, 105, 97, 108, 34,
   58, 34, 67, 34, 125, 93]

/-- The bytes of the spec's numeric-value scenario: the input
`[{"model":"RDV2"},{"model":123},{"model":"RDV2"},{"model":"ABC"}]`. -/
def numericInput : List Nat :=
  [91, 123, 34, 109, 111, 100, 101, 108, 34, 58, 34, 82, 68, 86, 50, 34, 125,
   44, 123, 34, 109, 111, 100, 101, 108, 34, 58, 49, 50, 51, 125, 44, 123, 34,
   109, 111, 100, 101, 108, 34, 58, 34, 82, 68, 86, 50, 34, 125, 44, 123, 34,
   109, 111, 100, 101, 108, 34, 58, 34, 65, 66, 67, 34, 125, 93]

/-- The bytes of `RDV2`. -/
def rdv2K : List Nat := [82, 68, 86, 50]

/-- The bytes of `ABC`. -/
def abcK : List Nat := [65, 66, 67]

/-- The bytes of `XYZ`. -/
def xyzK : List Nat := [88, 89, 90]

/-! ## List helper lemmas -/

theorem getD_replicate_nil {α : Type} :
    ∀ (n i : Nat), (List.replicate n ([] : List α)).getD i [] = [] := by
  intro n
  induction n with
  | zero => intro i; simp
  | succ m ih =>
    intro i
    cases i with
    | zero => simp [List.replicate]
    | succ j => simp [List.replicate, ih j]

theorem flatten_replicate_nil {α : Type} :
    ∀ n, (List.replicate n ([] : List α)).flatten = [] := by
  intro n
  induction n with
  | zero => simp
  | succ m ih => simp [List.replicate, ih]

theorem getD_set_self {α : Type} (d : α) :
    ∀ (l : List α) (i : Nat) (x : α), i < l.length → (l.set i x).getD i d = x := by
  intro l
  induction l with
  | nil => intro i x h; simp at h
  | cons a l ih =>
    intro i x h
    cases i with
    | zero => simp
    | succ j => simpa using ih j x (by simpa using h)

theorem getD_set_ne {α : Type} (d : α) :
    ∀ (l : List α) (i j : Nat) (x : α), i ≠ j →
      (l.set i x).getD j d = l.getD j d := by
  intro l
  induction l with
  | nil => intro i j x _; simp
  | cons a l ih =>
    intro i j x hij
    cases i with
    | zero =>
      cases j with
      | zero => exact absurd rfl hij
      | succ j' => simp
    | succ i' =>
      cases j with
      | zero => simp
      | succ j' => simpa using ih i' j' x (by omega)

theorem set_getD_self {α : Type} (d : α) :
    ∀ (l : List α) (i : Nat), i < l.length → l.set i (l.getD i d) = l := by
  intro l
  induction l with
  | nil => intro i h; simp at h
  | cons a l ih =>
    intro i h
    cases i with
    | zero => simp
    | succ j => simpa using ih j (by simpa using h)

theorem flatten_set_perm {α : Type} :
    ∀ (bs : List (List α)) (i : Nat) (C : List α), i < bs.length →
      ((bs.set i C).flatten).Perm (C ++ (bs.set i []).flatten) := by
  intro bs
  induction bs with
  | nil => intro i C h; simp at h
  | cons b bs ih =>
    intro i C h
    cases i with
    | zero => simp
    | succ j =>
      have hj : j < bs.length := by simpa using h
      have h1 := (ih j C hj).append_left b
      simp only [List.set_cons_succ, List.flatten_cons]
      exact h1.trans (List.perm_append_comm_assoc b C _)

theorem flatten_bucket_perm {α : Type} (bs : List (List α)) (i : Nat)
    (h : i < bs.length) :
    bs.flatten.Perm (bs.getD i [] ++ (bs.set i []).flatten) := by
  have := flatten_set_perm bs i (bs.getD i []) h
  rwa [set_getD_self _ _ _ h] at this

theorem bucket_sublist {α : Type} :
    ∀ (bs : List (List α)) (i : Nat), (bs.getD i []).Sublist bs.flatten := by
  intro bs
  induction bs with
  | nil => intro i; simp
  | cons b bs ih =>
    intro i
    cases i with
    | zero => simp only [List.getD_cons_zero, List.flatten_cons]
              exact List.sublist_append_left b bs.flatten
    | succ j =>
      have := ih j
      simp only [List.getD_cons_succ, List.flatten_cons]
      exact this.trans (List.sublist_append_right b bs.flatten)

theorem exists_bucket_of_mem_flatten {α : Type} :
    ∀ (bs : List (List α)) (e : α), e ∈ bs.flatten →
      ∃ i, i < bs.length ∧ e ∈ bs.getD i [] := by
  intro bs
  induction bs with
  | nil => intro e h; simp at h
  | cons b bs ih =>
    intro e h
    simp only [List.flatten_cons, List.mem_append] at h
    rcases h with h1 | h2
    · exact ⟨0, by simp, by simpa using h1⟩
    · rcases ih e h2 with ⟨i, hi, hmem⟩
      exact ⟨i + 1, by simpa using hi, by simpa using hmem⟩

/-! ## Chain lemmas -/

theorem chainMem_iff (k : List Nat) :
    ∀ es : List Entry, chainMem k es = true ↔ ∃ e ∈ es, e.key = k := by
  intro es
  induction es with
  | nil => simp [chainMem]
  | cons e es ih =>
    by_cases h : e.key = k
    · simp [chainMem, h]
    · simp only [chainMem, if_neg h, ih, List.mem_cons]
      constructor
      · rintro ⟨e', h1, h2⟩; exact ⟨e', Or.inr h1, h2⟩
      · rintro ⟨e', h1 | h1, h2⟩
        · exact absurd (h1 ▸ h2) h
        · exact ⟨e', h1, h2⟩

theorem chainGet_eq_zero (k : List Nat) :
    ∀ es : List Entry, (∀ e ∈ es, e.key ≠ k) → chainGet k es = 0 := by
  intro es
  induction es with
  | nil => intro _; rfl
  | cons e es ih =>
    intro h
    have he : e.key ≠ k := h e (List.mem_cons_self e es)
    simp only [chainGet, if_neg he]
    exact ih fun e' h' => h e' (List.mem_cons_of_mem e h')

theorem chainMem_eq_false (k : List Nat) (es : List Entry)
    (h : ∀ e ∈ es, e.key ≠ k) : chainMem k es = false := by
  by_contra hc
  have : chainMem k es = true := by
    cases hmem : chainMem k es with
    | true => rfl
    | false => exact absurd hmem hc
  rcases (chainMem_iff k es).1 this with ⟨e, h1, h2⟩
  exact h e h1 h2

theorem chainGet_of_mem (k : List Nat) :
    ∀ es : List Entry, (es.map Entry.key).Nodup →
      ∀ e ∈ es, e.key = k → chainGet k es = e.count := by
  intro es
  induction es with
  | nil => intro _ e h; simp at h
  | cons e0 es ih =>
    intro hnd e hmem hkey
    rcases List.mem_cons.1 hmem with h | h
    · subst h
      simp [chainGet, hkey]
    · have h0 : e0.key ≠ k := by
        intro hk
        have : e.key ∈ es.map Entry.key := List.mem_map_of_mem Entry.key h
        rw [hkey, ← hk] at this
        exact (List.nodup_cons.1 hnd).1 this
      simp only [chainGet, if_neg h0]
      exact ih (List.nodup_cons.1 hnd).2 e h hkey

/-! ## `chainInc` characterization -/

theorem chainInc_none_iff (k : List Nat) :
    ∀ es : List Entry, chainInc k es = none ↔ ∀ e ∈ es, e.key ≠ k := by
  intro es
  induction es with
  | nil => simp [chainInc]
  | cons e es ih =>
    by_cases h : e.key = k
    · simp [chainInc, h]
    · simp only [chainInc, if_neg h, List.mem_cons]
      constructor
      · intro hmap e' hm
        rcases hm with hm | hm
        · exact hm ▸ h
        · have : chainInc k es = none := by
            cases hc : chainInc k es with
            | none => rfl
            | some es' => rw [hc] at hmap; simp at hmap
          exact (ih.1 this) e' hm
      · intro hall
        have hn : chainInc k es = none := ih.2 fun e' hm => hall e' (Or.inr hm)
        rw [hn]; rfl

theorem chainInc_some_spec (k : List Nat) :
    ∀ (es es' : List Entry), chainInc k es = some es' →
      es'.map Entry.key = es.map Entry.key ∧
      chainGet k es' = (chainGet k es + 1) % U64 ∧
      (∀ w, w ≠ k → chainGet w es' = chainGet w es ∧
        chainMem w es' = chainMem w es) ∧
      (es'.map Entry.count).sum + chainGet k es
        = (es.map Entry.count).sum + (chainGet k es + 1) % U64 := by
  intro es
  induction es with
  | nil => intro es' h; simp [chainInc] at h
  | cons e es ih =>
    intro es' h
    by_cases hk : e.key = k
    · simp only [chainInc, if_pos hk, Option.some.injEq] at h
      subst h
      refine ⟨by simp [hk], ?_, ?_, ?_⟩
      · simp [chainGet, hk]
      · intro w hw
        have : e.key ≠ w := by rw [hk]; exact fun hh => hw hh.symm
        simp [chainGet, chainMem, this]
      · simp only [List.map_cons, List.sum_cons, chainGet, if_pos hk]
        omega
    · simp only [chainInc, if_neg hk] at h
      cases hc : chainInc k es with
      | none => rw [hc] at h; simp at h
      | some es0 =>
        rw [hc] at h
        simp only [Option.map_some', Option.some.injEq] at h
        subst h
        rcases ih es0 hc with ⟨h1, h2, h3, h4⟩
        refine ⟨by simp [h1], ?_, ?_, ?_⟩
        · simp [chainGet, hk, h2]
        · intro w hw
          by_cases hew : e.key = w
          · simp [chainGet, chainMem, hew, h3 w hw]
          · simp [chainGet, chainMem, hew, h3 w hw]
        · simp only [List.map_cons, List.sum_cons, chainGet, if_neg hk]
          omega

/-! ## Table well-formedness -/

theorem mem_entries_of_mem_bucket {t : HashTable} {i : Nat} {e : Entry}
    (h : e ∈ t.buckets.getD i []) : e ∈ entries t :=
  (bucket_sublist t.buckets i).subset h

theorem mem_bucket_of_mem_entries {t : HashTable} (hw : WF t) {e : Entry}
    (h : e ∈ entries t) :
    e ∈ t.buckets.getD (hash_str e.key % t.bucket_count) [] := by
  rcases exists_bucket_of_mem_flatten t.buckets e h with ⟨i, hi, hmem⟩
  rwa [hw.idx i e hmem]

theorem memTable_iff {t : HashTable} (hw : WF t) (k : List Nat) :
    memTable t k = true ↔ ∃ e ∈ entries t, e.key = k := by
  constructor
  · intro h
    rcases (chainMem_iff k _).1 h with ⟨e, h1, h2⟩
    exact ⟨e, mem_entries_of_mem_bucket h1, h2⟩
  · rintro ⟨e, h1, h2⟩
    have := mem_bucket_of_mem_entries hw h1
    rw [h2] at this
    exact (chainMem_iff k _).2 ⟨e, this, h2⟩

theorem get_count_of_mem {t : HashTable} (hw : WF t) {e : Entry} {k : List Nat}
    (h1 : e ∈ entries t) (h2 : e.key = k) : get_count t k = e.count := by
  have hb : e ∈ t.buckets.getD (hash_str k % t.bucket_count) [] := by
    have := mem_bucket_of_mem_entries hw h1
    rwa [h2] at this
  have hnd : ((t.buckets.getD (hash_str k % t.bucket_count) []).map
      Entry.key).Nodup :=
    hw.nodup.sublist ((bucket_sublist t.buckets _).map Entry.key)
  exact chainGet_of_mem k _ hnd e hb h2

theorem get_count_eq_zero {t : HashTable} {k : List Nat}
    (h : ∀ e ∈ entries t, e.key ≠ k) : get_count t k = 0 :=
  chainGet_eq_zero k _ fun e he => h e (mem_entries_of_mem_bucket he)

theorem memTable_eq_false {t : HashTable} {k : List Nat}
    (h : ∀ e ∈ entries t, e.key ≠ k) : memTable t k = false :=
  chainMem_eq_false k _ fun e he => h e (mem_entries_of_mem_bucket he)

theorem no_key_of_memTable_eq_false {t : HashTable} {k : List Nat} (hw : WF t)
    (h : memTable t k = false) : ∀ e ∈ entries t, e.key ≠ k := by
  intro e he hk
  have : memTable t k = true := (memTable_iff hw k).2 ⟨e, he, hk⟩
  rw [this] at h
  exact Bool.noConfusion h

/-- Tables with permuted entry lists agree on membership and counts. -/
theorem observers_of_perm {t1 t2 : HashTable} (hw1 : WF t1) (hw2 : WF t2)
    (hp : (entries t1).Perm (entries t2)) (k : List Nat) :
    memTable t1 k = memTable t2 k ∧ get_count t1 k = get_count t2 k := by
  by_cases hex : ∃ e ∈ entries t1, e.key = k
  · rcases hex with ⟨e, he, hk⟩
    have he2 : e ∈ entries t2 := hp.mem_iff.1 he
    refine ⟨?_, ?_⟩
    · rw [(memTable_iff hw1 k).2 ⟨e, he, hk⟩, (memTable_iff hw2 k).2 ⟨e, he2, hk⟩]
    · rw [get_count_of_mem hw1 he hk, get_count_of_mem hw2 he2 hk]
  · push_neg at hex
    have hex2 : ∀ e ∈ entries t2, e.key ≠ k := fun e he =>
      hex e (hp.mem_iff.2 he)
    refine ⟨?_, ?_⟩
    · rw [memTable_eq_false hex, memTable_eq_false hex2]
    · rw [get_count_eq_zero hex, get_count_eq_zero hex2]

/-! ## `table_init` lemmas -/

theorem entries_init (n : Nat) : entries (table_init n) = [] :=
  flatten_replicate_nil n

theorem WF_init (n : Nat) (h : 0 < n) : WF (table_init n) := by
  refine ⟨by simp [table_init], h, ?_, ?_, ?_⟩
  · intro i e he
    rw [table_init] at he
    simp only [getD_replicate_nil] at he
    exact absurd he (List.not_mem_nil e)
  · simp [entries_init]
  · rw [entries_init]; rfl

theorem memTable_init (n : Nat) (k : List Nat) :
    memTable (table_init n) k = false := by
  simp [memTable, table_init, getD_replicate_nil, chainMem]

theorem get_count_init (n : Nat) (k : List Nat) :
    get_count (table_init n) k = 0 := by
  simp [get_count, table_init, getD_replicate_nil, chainGet]

theorem sumCounts_init (n : Nat) : sumCounts (table_init n) = 0 := by
  simp [sumCounts, entries_init]

/-! ## `table_rehash` lemmas -/

theorem rehash_fold_spec (m : Nat) (hm : 0 < m) :
    ∀ (es : List Entry) (nb : List (List Entry)), nb.length = m →
      (∀ i, ∀ e ∈ nb.getD i [], hash_str e.key % m = i) →
      (es.foldl (rehashInsert m) nb).length = m ∧
      ((es.foldl (rehashInsert m) nb).flatten).Perm (es ++ nb.flatten) ∧
      (∀ i, ∀ e ∈ (es.foldl (rehashInsert m) nb).getD i [],
        hash_str e.key % m = i) := by
  intro es
  induction es with
  | nil =>
    intro nb hlen hidx
    exact ⟨hlen, by simp, hidx⟩
  | cons e es ih =>
    intro nb hlen hidx
    have hidxlt : hash_str e.key % m < m := Nat.mod_lt _ hm
    have hidxlen : hash_str e.key % m < nb.length := by omega
    have hlen' : (rehashInsert m nb e).length = m := by
      simp [rehashInsert, hlen]
    have hidx' : ∀ i, ∀ e' ∈ (rehashInsert m nb e).getD i [],
        hash_str e'.key % m = i := by
      intro i e' he'
      by_cases hi : hash_str e.key % m = i
      · subst hi
        rw [rehashInsert] at he'
        rw [getD_set_self _ _ _ _ hidxlen] at he'
        rcases List.mem_cons.1 he' with h | h
        · rw [h]
        · exact hidx _ e' h
      · rw [rehashInsert] at he'
        rw [getD_set_ne _ _ _ _ _ hi] at he'
        exact hidx i e' he'
    rcases ih (rehashInsert m nb e) hlen' hidx' with ⟨h1, h2, h3⟩
    refine ⟨by simpa [List.foldl_cons] using h1, ?_,
      by simpa [List.foldl_cons] using h3⟩
    have hflat : ((rehashInsert m nb e).flatten).Perm (e :: nb.flatten) := by
      have ha := flatten_set_perm nb (hash_str e.key % m)
        (e :: nb.getD (hash_str e.key % m) []) hidxlen
      have hb := flatten_bucket_perm nb (hash_str e.key % m) hidxlen
      rw [rehashInsert]
      refine ha.trans ?_
      simp only [List.cons_append]
      exact (hb.symm.cons e)
    have hstep : ((es.foldl (rehashInsert m) (rehashInsert m nb e)).flatten).Perm
        ((e :: es) ++ nb.flatten) := by
      refine h2.trans ?_
      refine (hflat.append_left es).trans ?_
      simp only [List.cons_append]
      exact List.perm_middle
    simpa [List.foldl_cons] using hstep

theorem entries_rehash {t : HashTable} (hw : WF t) :
    (entries (table_rehash t)).Perm (entries t) := by
  have hm : 0 < t.bucket_count * 2 := by have := hw.pos; omega
  have hstart : ∀ i, ∀ e ∈ (List.replicate (t.bucket_count * 2)
      ([] : List Entry)).getD i [], hash_str e.key % (t.bucket_count * 2) = i := by
    intro i e he
    rw [getD_replicate_nil] at he
    exact absurd he (List.not_mem_nil e)
  rcases rehash_fold_spec (t.bucket_count * 2) hm (entries t)
    (List.replicate (t.bucket_count * 2) []) (by simp) hstart with ⟨_, h2, _⟩
  have : entries (table_rehash t)
      = ((entries t).foldl (rehashInsert (t.bucket_count * 2))
        (List.replicate (t.bucket_count * 2) [])).flatten := rfl
  rw [this]
  simpa [flatten_replicate_nil] using h2

theorem WF_rehash {t : HashTable} (hw : WF t) : WF (table_rehash t) := by
  have hm : 0 < t.bucket_count * 2 := by have := hw.pos; omega
  have hstart : ∀ i, ∀ e ∈ (List.replicate (t.bucket_count * 2)
      ([] : List Entry)).getD i [], hash_str e.key % (t.bucket_count * 2) = i := by
    intro i e he
    rw [getD_replicate_nil] at he
    exact absurd he (List.not_mem_nil e)
  rcases rehash_fold_spec (t.bucket_count * 2) hm (entries t)
    (List.replicate (t.bucket_count * 2) []) (by simp) hstart with ⟨h1, _, h3⟩
  have hperm := entries_rehash hw
  refine ⟨h1, hm, h3, ?_, ?_⟩
  · exact ((hperm.map Entry.key).nodup_iff).2 hw.nodup
  · have : (table_rehash t).size = t.size := rfl
    rw [this, hw.sz, hperm.length_eq]

theorem rehash_bucket_count (t : HashTable) :
    (table_rehash t).bucket_count = t.bucket_count * 2 := rfl

theorem rehash_size (t : HashTable) : (table_rehash t).size = t.size := rfl

theorem rehash_observers {t : HashTable} (hw : WF t) (k : List Nat) :
    memTable (table_rehash t) k = memTable t k ∧
    get_count (table_rehash t) k = get_count t k :=
  observers_of_perm (WF_rehash hw) hw (entries_rehash hw) k

theorem sumCounts_rehash {t : HashTable} (hw : WF t) :
    sumCounts (table_rehash t) = sumCounts t :=
  ((entries_rehash hw).map Entry.count).sum_eq

/-! ## `table_inc` lemmas -/

theorem inc_core_spec {t : HashTable} (hw : WF t) (k : List Nat) :
    WF (table_inc_core t k) ∧
    memTable (table_inc_core t k) k = true ∧
    get_count (table_inc_core t k) k = (get_count t k + 1) % U64 ∧
    (∀ w, w ≠ k → memTable (table_inc_core t k) w = memTable t w ∧
      get_count (table_inc_core t k) w = get_count t w) ∧
    (table_inc_core t k).size = (if memTable t k then t.size else t.size + 1) ∧
    (table_inc_core t k).bucket_count = t.bucket_count ∧
    sumCounts (table_inc_core t k) % U64 = (sumCounts t + 1) % U64 := by
  have hidxlt : hash_str k % t.bucket_count < t.buckets.length := by
    rw [hw.len]; exact Nat.mod_lt _ hw.pos
  cases hc : chainInc k (t.buckets.getD (hash_str k % t.bucket_count) []) with
  | none =>
    have htc : table_inc_core t k =
        { t with
          buckets := t.buckets.set (hash_str k % t.bucket_count)
            ({ key := k, count := 1 } ::
              t.buckets.getD (hash_str k % t.bucket_count) []),
          size := t.size + 1 } := by
      simp only [table_inc_core, hc]
    have hfreshB : ∀ e ∈ t.buckets.getD (hash_str k % t.bucket_count) [],
        e.key ≠ k := (chainInc_none_iff k _).1 hc
    have hfresh : ∀ e ∈ entries t, e.key ≠ k := by
      intro e he hk
      have hb := mem_bucket_of_mem_entries hw he
      rw [hk] at hb
      exact hfreshB e hb hk
    have hmemf : memTable t k = false := memTable_eq_false hfresh
    have hget0 : get_count t k = 0 := get_count_eq_zero hfresh
    have hperm : (entries (table_inc_core t k)).Perm
        (({ key := k, count := 1 } : Entry) :: entries t) := by
      rw [htc]
      have h1 := flatten_set_perm t.buckets (hash_str k % t.bucket_count)
        (({ key := k, count := 1 } : Entry) ::
          t.buckets.getD (hash_str k % t.bucket_count) []) hidxlt
      have h2 := flatten_bucket_perm t.buckets (hash_str k % t.bucket_count)
        hidxlt
      refine h1.trans ?_
      simp only [List.cons_append]
      exact h2.symm.cons _
    have hknotin : k ∉ (entries t).map Entry.key := by
      intro hmem
      rcases List.mem_map.1 hmem with ⟨e, he, hke⟩
      exact hfresh e he hke
    have hw' : WF (table_inc_core t k) := by
      refine ⟨?_, ?_, ?_, ?_, ?_⟩
      · rw [htc]; simp [hw.len]
      · rw [htc]; exact hw.pos
      · intro i e' he'
        rw [htc] at he'
        simp only at he'
        by_cases hi : i = hash_str k % t.bucket_count
        · subst hi
          rw [getD_set_self _ _ _ _ hidxlt] at he'
          rcases List.mem_cons.1 he' with h | h
          · rw [htc]; simp only [h]
          · rw [htc]
            simpa using hw.idx _ e' h
        · rw [getD_set_ne _ _ _ _ _ (fun hh => hi hh.symm)] at he'
          rw [htc]
          simpa using hw.idx i e' he'
      · refine ((hperm.map Entry.key).nodup_iff).2 ?_
        simp only [List.map_cons]
        exact List.nodup_cons.2 ⟨hknotin, hw.nodup⟩
      · rw [hperm.length_eq, htc]
        simp [hw.sz]
    have hmem' : ({ key := k, count := 1 } : Entry) ∈
        entries (table_inc_core t k) :=
      hperm.mem_iff.2 (List.mem_cons_self _ _)
    have hone : (1 : Nat) = (get_count t k + 1) % U64 := by
      rw [hget0]; decide
    refine ⟨hw', ?_, ?_, ?_, ?_, ?_, ?_⟩
    · exact (memTable_iff hw' k).2 ⟨_, hmem', rfl⟩
    · rw [get_count_of_mem hw' hmem' rfl]; exact hone
    · intro w hwk
      by_cases hex : ∃ e ∈ entries t, e.key = w
      · rcases hex with ⟨e, he, hke⟩
        have he' : e ∈ entries (table_inc_core t k) :=
          hperm.mem_iff.2 (List.mem_cons_of_mem _ he)
        constructor
        · rw [(memTable_iff hw' w).2 ⟨e, he', hke⟩,
            (memTable_iff hw w).2 ⟨e, he, hke⟩]
        · rw [get_count_of_mem hw' he' hke, get_count_of_mem hw he hke]
      · push_neg at hex
        have hex' : ∀ e ∈ entries (table_inc_core t k), e.key ≠ w := by
          intro e he
          rcases List.mem_cons.1 (hperm.mem_iff.1 he) with h | h
          · rw [h]; exact fun hh => hwk hh.symm
          · exact hex e h
        constructor
        · rw [memTable_eq_false hex', memTable_eq_false hex]
        · rw [get_count_eq_zero hex', get_count_eq_zero hex]
    · rw [htc]; simp [hmemf]
    · rw [htc]
    · have hsum : sumCounts (table_inc_core t k) = 1 + sumCounts t := by
        unfold sumCounts
        rw [(hperm.map Entry.count).sum_eq]
        simp
      rw [hsum, Nat.add_comm 1 (sumCounts t)]
  | some B' =>
    have htc : table_inc_core t k =
        { t with buckets := t.buckets.set (hash_str k % t.bucket_count) B' } := by
      simp only [table_inc_core, hc]
    rcases chainInc_some_spec k _ B' hc with ⟨hkeys, hgetk, hother, hsum⟩
    have hmemB : ∃ e ∈ t.buckets.getD (hash_str k % t.bucket_count) [],
        e.key = k := by
      by_contra hall
      push_neg at hall
      rw [(chainInc_none_iff k _).2 hall] at hc
      exact Option.noConfusion hc
    have hmemT : memTable t k = true := by
      rcases hmemB with ⟨e, he, hke⟩
      exact (memTable_iff hw k).2 ⟨e, mem_entries_of_mem_bucket he, hke⟩
    have hpermA : (entries (table_inc_core t k)).Perm
        (B' ++ (t.buckets.set (hash_str k % t.bucket_count) []).flatten) := by
      rw [htc]
      exact flatten_set_perm t.buckets _ B' hidxlt
    have hpermB : (entries t).Perm
        ((t.buckets.getD (hash_str k % t.bucket_count) []) ++
          (t.buckets.set (hash_str k % t.bucket_count) []).flatten) :=
      flatten_bucket_perm t.buckets _ hidxlt
    have hlenB' : B'.length
        = (t.buckets.getD (hash_str k % t.bucket_count) []).length := by
      have := congrArg List.length hkeys
      simpa using this
    have hw' : WF (table_inc_core t k) := by
      refine ⟨?_, ?_, ?_, ?_, ?_⟩
      · rw [htc]; simp [hw.len]
      · rw [htc]; exact hw.pos
      · intro i e' he'
        rw [htc] at he'
        simp only at he'
        by_cases hi : i = hash_str k % t.bucket_count
        · subst hi
          rw [getD_set_self _ _ _ _ hidxlt] at he'
          have : e'.key ∈ (t.buckets.getD (hash_str k % t.bucket_count) []).map
              Entry.key := by
            rw [← hkeys]
            exact List.mem_map_of_mem Entry.key he'
          rcases List.mem_map.1 this with ⟨e0, he0, hk0⟩
          rw [htc]
          have := hw.idx _ e0 he0
          simpa [← hk0] using this
        · rw [getD_set_ne _ _ _ _ _ (fun hh => hi hh.symm)] at he'
          rw [htc]
          simpa using hw.idx i e' he'
      · refine ((hpermA.map Entry.key).nodup_iff).2 ?_
        have h2 := (hpermB.map Entry.key).nodup_iff.1 hw.nodup
        simpa [hkeys] using h2
      · rw [hpermA.length_eq, htc]
        simp only [List.length_append]
        rw [hlenB']
        have := hpermB.length_eq
        simp only [List.length_append] at this
        rw [hw.sz, this]
    have hbucket' : (table_inc_core t k).buckets.getD
        (hash_str k % (table_inc_core t k).bucket_count) [] = B' := by
      rw [htc]
      exact getD_set_self _ _ _ _ hidxlt
    refine ⟨hw', ?_, ?_, ?_, ?_, ?_, ?_⟩
    · show chainMem k _ = true
      rw [hbucket']
      rcases hmemB with ⟨e, he, hke⟩
      have : e.key ∈ B'.map Entry.key := by
        rw [hkeys]; exact List.mem_map_of_mem Entry.key he
      rcases List.mem_map.1 this with ⟨e0, he0, hk0⟩
      exact (chainMem_iff k B').2 ⟨e0, he0, hk0.trans hke⟩
    · show chainGet k _ = _
      rw [hbucket']
      exact hgetk
    · intro w hwk
      by_cases hj : hash_str w % t.bucket_count = hash_str k % t.bucket_count
      · have hbw : (table_inc_core t k).buckets.getD
            (hash_str w % (table_inc_core t k).bucket_count) [] = B' := by
          rw [htc]
          simp only [hj]
          exact getD_set_self _ _ _ _ hidxlt
        constructor
        · show chainMem w _ = chainMem w _
          rw [hbw, (hother w hwk).2, hj]
        · show chainGet w _ = chainGet w _
          rw [hbw, (hother w hwk).1, hj]
      · have hbw : (table_inc_core t k).buckets.getD
            (hash_str w % (table_inc_core t k).bucket_count) []
            = t.buckets.getD (hash_str w % t.bucket_count) [] := by
          rw [htc]
          exact getD_set_ne _ _ _ _ _ (fun hh => hj hh.symm)
        constructor
        · show chainMem w _ = chainMem w _
          rw [hbw]
        · show chainGet w _ = chainGet w _
          rw [hbw]
    · rw [htc]; simp [hmemT]
    · rw [htc]
    · have hs1 : sumCounts (table_inc_core t k)
          = (B'.map Entry.count).sum +
            (((t.buckets.set (hash_str k % t.bucket_count) []).flatten).map
              Entry.count).sum := by
        unfold sumCounts
        rw [(hpermA.map Entry.count).sum_eq]
        simp
      have hs2 : sumCounts t
          = ((t.buckets.getD (hash_str k % t.bucket_count) []).map
              Entry.count).sum +
            (((t.buckets.set (hash_str k % t.bucket_count) []).flatten).map
              Entry.count).sum := by
        unfold sumCounts
        rw [(hpermB.map Entry.count).sum_eq]
        simp
      rw [hs1, hs2]
      simp only [U64] at hsum ⊢
      omega

theorem inc_spec {t : HashTable} (hw : WF t) (k : List Nat) :
    WF (table_inc t k) ∧
    memTable (table_inc t k) k = true ∧
    get_count (table_inc t k) k = (get_count t k + 1) % U64 ∧
    (∀ w, w ≠ k → memTable (table_inc t k) w = memTable t w ∧
      get_count (table_inc t k) w = get_count t w) ∧
    (table_inc t k).size = (if memTable t k then t.size else t.size + 1) ∧
    sumCounts (table_inc t k) % U64 = (sumCounts t + 1) % U64 := by
  rw [table_inc]
  by_cases htr : t.size * 4 ≥ t.bucket_count * 3
  · rw [if_pos htr]
    have hw1 := WF_rehash hw
    rcases inc_core_spec hw1 k with ⟨a, b, c, d, e, _, g⟩
    have hobs := fun w => rehash_observers hw w
    refine ⟨a, b, ?_, ?_, ?_, ?_⟩
    · rw [c, (hobs k).2]
    · intro w hwk
      rcases d w hwk with ⟨d1, d2⟩
      exact ⟨d1.trans (hobs w).1, d2.trans (hobs w).2⟩
    · rw [e, (hobs k).1, rehash_size]
    · rw [g, sumCounts_rehash hw]
  · rw [if_neg htr]
    exact ⟨(inc_core_spec hw k).1, (inc_core_spec hw k).2.1,
      (inc_core_spec hw k).2.2.1, (inc_core_spec hw k).2.2.2.1,
      (inc_core_spec hw k).2.2.2.2.1, (inc_core_spec hw k).2.2.2.2.2.2⟩

theorem WF_inc {t : HashTable} (hw : WF t) (k : List Nat) :
    WF (table_inc t k) := (inc_spec hw k).1

theorem inc_core_bucket_count (t : HashTable) (k : List Nat) :
    (table_inc_core t k).bucket_count = t.bucket_count := by
  simp only [table_inc_core]
  cases chainInc k (t.buckets.getD (hash_str k % t.bucket_count) []) <;> rfl

theorem inc_core_size_le (t : HashTable) (k : List Nat) :
    (table_inc_core t k).size ≤ t.size + 1 := by
  simp only [table_inc_core]
  cases chainInc k (t.buckets.getD (hash_str k % t.bucket_count) []) with
  | none => exact Nat.le_refl _
  | some _ => exact Nat.le_succ _

theorem inc_bucket_count (t : HashTable) (k : List Nat) :
    (table_inc t k).bucket_count =
      if t.size * 4 ≥ t.bucket_count * 3 then t.bucket_count * 2
      else t.bucket_count := by
  rw [table_inc]
  by_cases htr : t.size * 4 ≥ t.bucket_count * 3
  · rw [if_pos htr, if_pos htr, inc_core_bucket_count, rehash_bucket_count]
  · rw [if_neg htr, if_neg htr, inc_core_bucket_count]

theorem inc_size_le (t : HashTable) (k : List Nat) :
    (table_inc t k).size ≤ t.size + 1 := by
  rw [table_inc]
  by_cases htr : t.size * 4 ≥ t.bucket_count * 3
  · rw [if_pos htr]
    have := inc_core_size_le (table_rehash t) k
    rwa [rehash_size] at this
  · rw [if_neg htr]
    exact inc_core_size_le t k

/-! ## Folded and iterated increments -/

theorem WF_fold :
    ∀ (vs : List (List Nat)) (t : HashTable), WF t →
      WF (List.foldl table_inc t vs) := by
  intro vs
  induction vs with
  | nil => intro t hw; simpa using hw
  | cons v vs ih =>
    intro t hw
    simpa [List.foldl_cons] using ih _ (WF_inc hw v)

theorem memTable_fold :
    ∀ (vs : List (List Nat)) (t : HashTable), WF t → ∀ k,
      (memTable (List.foldl table_inc t vs) k = true ↔
        memTable t k = true ∨ k ∈ vs) := by
  intro vs
  induction vs with
  | nil => intro t hw k; simp
  | cons v vs ih =>
    intro t hw k
    rcases inc_spec hw v with ⟨hw', hmem, _, hoth, _, _⟩
    have step : memTable (table_inc t v) k = true ↔
        memTable t k = true ∨ k = v := by
      by_cases hkv : k = v
      · subst hkv; simp [hmem]
      · rw [(hoth k hkv).1]; simp [hkv]
    rw [List.foldl_cons]
    rw [ih _ hw' k, step]
    simp only [List.mem_cons]
    tauto

theorem sumCounts_fold :
    ∀ (vs : List (List Nat)) (t : HashTable), WF t →
      sumCounts (List.foldl table_inc t vs) % U64
        = (sumCounts t + vs.length) % U64 := by
  intro vs
  induction vs with
  | nil => intro t _; simp
  | cons v vs ih =>
    intro t hw
    rcases inc_spec hw v with ⟨hw', _, _, _, _, hsum⟩
    rw [List.foldl_cons, ih _ hw']
    have h1 : (sumCounts (table_inc t v) + vs.length) % U64
        = (sumCounts t + 1 + vs.length) % U64 :=
      Nat.ModEq.add_right vs.length hsum
    rw [h1]
    congr 1
    simp [List.length_cons]
    omega

theorem counter_fold :
    ∀ (vs : List (List Nat)) (n : Nat), n < U64 →
      List.foldl (fun m _ => (m + 1) % U64) n vs = (n + vs.length) % U64 := by
  intro vs
  induction vs with
  | nil => intro n h; simp [Nat.mod_eq_of_lt h]
  | cons v vs ih =>
    intro n h
    rw [List.foldl_cons, ih _ (Nat.mod_lt _ (by decide)), Nat.mod_add_mod]
    congr 1
    simp [List.length_cons]
    omega

theorem size_fold_distinct (n : Nat) (hn : 0 < n) (vs : List (List Nat)) :
    (List.foldl table_inc (table_init n) vs).size = vs.dedup.length := by
  have hw0 := WF_init n hn
  have hwT := WF_fold vs (table_init n) hw0
  have hmemiff : ∀ k, k ∈ (entries (List.foldl table_inc (table_init n) vs)).map
      Entry.key ↔ k ∈ vs.dedup := by
    intro k
    rw [List.mem_dedup]
    constructor
    · intro hk
      rcases List.mem_map.1 hk with ⟨e, he, hke⟩
      have := (memTable_iff hwT k).2 ⟨e, he, hke⟩
      rcases (memTable_fold vs _ hw0 k).1 this with h | h
      · rw [memTable_init] at h; exact absurd h (by simp)
      · exact h
    · intro hk
      have : memTable (List.foldl table_inc (table_init n) vs) k = true :=
        (memTable_fold vs _ hw0 k).2 (Or.inr hk)
      rcases (memTable_iff hwT k).1 this with ⟨e, he, hke⟩
      exact List.mem_map.2 ⟨e, he, hke⟩
  have hperm : ((entries (List.foldl table_inc (table_init n) vs)).map
      Entry.key).Perm vs.dedup :=
    (List.perm_ext_iff_of_nodup hwT.nodup vs.nodup_dedup).2 hmemiff
  rw [hwT.sz, ← List.length_map _ Entry.key, hperm.length_eq]

theorem iterate_inc_spec {t : HashTable} (hw : WF t) (v : List Nat)
    (hmem : memTable t v = false) :
    ∀ N : Nat,
      WF ((fun tt => table_inc tt v)^[N] t) ∧
      get_count ((fun tt => table_inc tt v)^[N] t) v = N % U64 ∧
      (∀ w, w ≠ v →
        get_count ((fun tt => table_inc tt v)^[N] t) w = get_count t w ∧
        memTable ((fun tt => table_inc tt v)^[N] t) w = memTable t w) := by
  intro N
  induction N with
  | zero =>
    refine ⟨by simpa using hw, ?_, ?_⟩
    · have h0 : get_count t v = 0 :=
        get_count_eq_zero (no_key_of_memTable_eq_false hw hmem)
      simpa using h0
    · intro w _; simp
  | succ N ih =>
    rcases ih with ⟨hwN, hgetN, hothN⟩
    rcases inc_spec hwN v with ⟨hw', _, hself, hoth, _, _⟩
    rw [Function.iterate_succ_apply']
    refine ⟨hw', ?_, ?_⟩
    · rw [hself, hgetN, Nat.mod_add_mod]
    · intro w hwv
      rcases hoth w hwv with ⟨h1, h2⟩
      exact ⟨h2.trans (hothN w hwv).1, h1.trans (hothN w hwv).2⟩

/-! ## The load-factor invariant -/

theorem load_preserved (t : HashTable) (k : List Nat)
    (h4 : t.bucket_count % 4 = 0) (hpos : 0 < t.bucket_count)
    (hle : t.size * 4 ≤ t.bucket_count * 3) :
    (table_inc t k).bucket_count % 4 = 0 ∧ 0 < (table_inc t k).bucket_count ∧
    (table_inc t k).size * 4 ≤ (table_inc t k).bucket_count * 3 := by
  have hsz := inc_size_le t k
  have hbc := inc_bucket_count t k
  by_cases htr : t.size * 4 ≥ t.bucket_count * 3
  · rw [hbc, if_pos htr]
    refine ⟨by omega, by omega, ?_⟩
    omega
  · rw [hbc, if_neg htr]
    simp only [ge_iff_le, not_le] at htr
    refine ⟨h4, hpos, ?_⟩
    omega

theorem load_fold :
    ∀ (vs : List (List Nat)) (t : HashTable),
      t.bucket_count % 4 = 0 → 0 < t.bucket_count →
      t.size * 4 ≤ t.bucket_count * 3 →
      (List.foldl table_inc t vs).size * 4
        ≤ (List.foldl table_inc t vs).bucket_count * 3 := by
  intro vs
  induction vs with
  | nil => intro t _ _ h; simpa using h
  | cons v vs ih =>
    intro t h4 hpos hle
    rcases load_preserved t v h4 hpos hle with ⟨a, b, c⟩
    rw [List.foldl_cons]
    exact ih (table_inc t v) a b c

/-! ## Fresh-key folds (size and capacity tracking) -/

theorem fold_fresh :
    ∀ (vs : List (List Nat)) (t : HashTable), WF t → vs.Nodup →
      (∀ v ∈ vs, memTable t v = false) →
      (t.size + vs.length) * 4 ≤ t.bucket_count * 3 →
      (List.foldl table_inc t vs).size = t.size + vs.length ∧
      (List.foldl table_inc t vs).bucket_count = t.bucket_count := by
  intro vs
  induction vs with
  | nil => intro t _ _ _ _; simp
  | cons v vs ih =>
    intro t hw hnd hfresh hbound
    have hv : memTable t v = false := hfresh v (List.mem_cons_self v vs)
    have hlen : (v :: vs).length = vs.length + 1 := by simp
    have htr : ¬ (t.size * 4 ≥ t.bucket_count * 3) := by
      rw [hlen] at hbound; omega
    rcases inc_spec hw v with ⟨hw', hmem, _, hoth, hsize, _⟩
    have hsize' : (table_inc t v).size = t.size + 1 := by
      rw [hsize, hv]; simp
    have hbc' : (table_inc t v).bucket_count = t.bucket_count := by
      rw [inc_bucket_count, if_neg htr]
    have hfresh' : ∀ u ∈ vs, memTable (table_inc t v) u = false := by
      intro u hu
      have huv : u ≠ v := by
        intro h
        subst h
        exact (List.nodup_cons.1 hnd).1 hu
      rw [(hoth u huv).1]
      exact hfresh u (List.mem_cons_of_mem v hu)
    have hbound' : ((table_inc t v).size + vs.length) * 4
        ≤ (table_inc t v).bucket_count * 3 := by
      rw [hsize', hbc']
      rw [hlen] at hbound
      omega
    rcases ih (table_inc t v) hw' (List.nodup_cons.1 hnd).2 hfresh' hbound'
      with ⟨hs, hb⟩
    rw [List.foldl_cons]
    refine ⟨?_, by rw [hb, hbc']⟩
    rw [hs, hsize', hlen]
    omega

/-! ## Scanner lemmas -/

theorem hex_ne_quote_backslash {b : Nat} (h : isHexDigitByte b = true) :
    b ≠ 34 ∧ b ≠ 92 := by
  have hx : ((48 ≤ b ∧ b ≤ 57) ∨ (65 ≤ b ∧ b ≤ 70)) ∨ (97 ≤ b ∧ b ≤ 102) := by
    simpa [isHexDigitByte] using h
  omega

theorem hasClosingQuote_quote (r : List Nat) :
    hasClosingQuote (34 :: r) = true := by
  rw [hasClosingQuote.eq_def]; simp

theorem hasClosingQuote_backslash (b : Nat) (r : List Nat) :
    hasClosingQuote (92 :: b :: r) = hasClosingQuote r := by
  rw [hasClosingQuote.eq_def]; simp

theorem hasClosingQuote_cons (b : Nat) (r : List Nat) (h34 : b ≠ 34)
    (h92 : b ≠ 92) : hasClosingQuote (b :: r) = hasClosingQuote r := by
  rw [hasClosingQuote.eq_def]; simp [h34, h92]

theorem read_json_string_none_of_no_close :
    ∀ l : List Nat, hasClosingQuote l = false → read_json_string l = none := by
  intro l
  induction l using read_json_string.induct with
  | case1 => intro _; rfl
  | case2 r => intro h; rw [hasClosingQuote_quote] at h; exact absurd h (by simp)
  | case3 _ => intro _; rfl
  | case4 h1 h2 h3 h4 r3 hhex _ ih =>
    intro h
    have hx : isHexDigitByte h1 = true ∧ isHexDigitByte h2 = true ∧
        isHexDigitByte h3 = true ∧ isHexDigitByte h4 = true := by
      repeat rw [Bool.and_eq_true] at hhex
      exact ⟨hhex.1.1.1, hhex.1.1.2, hhex.1.2, hhex.2⟩
    have e1 := hex_ne_quote_backslash hx.1
    have e2 := hex_ne_quote_backslash hx.2.1
    have e3 := hex_ne_quote_backslash hx.2.2.1
    have e4 := hex_ne_quote_backslash hx.2.2.2
    have hr3 : hasClosingQuote r3 = false := by
      rw [hasClosingQuote_backslash, hasClosingQuote_cons _ _ e1.1 e1.2,
        hasClosingQuote_cons _ _ e2.1 e2.2, hasClosingQuote_cons _ _ e3.1 e3.2,
        hasClosingQuote_cons _ _ e4.1 e4.2] at h
      exact h
    rw [read_json_string.eq_def]
    simp [hhex, ih hr3]
  | case5 h1 h2 h3 h4 r3 hhex _ =>
    intro _
    rw [read_json_string.eq_def]
    simp [hhex]
  | case6 r hshort _ =>
    intro _
    rcases r with _ | ⟨a, _ | ⟨b, _ | ⟨c, _ | ⟨d, r⟩⟩⟩⟩
    · rfl
    · rfl
    · rfl
    · rfl
    · exact (hshort a b c d r rfl).elim
  | case7 b r hb _ ih =>
    intro h
    rw [hasClosingQuote_backslash] at h
    rw [read_json_string.eq_def]
    simp [hb, ih h]
  | case8 b r hb34 hb92 ih =>
    intro h
    rw [hasClosingQuote_cons _ _ hb34 hb92] at h
    rw [read_json_string.eq_def]
    simp [hb34, hb92, ih h]

theorem skipContainer_nil (d : Nat) (inString esc : Bool) :
    skipContainer (d + 1) inString esc [] = none := rfl

theorem skipContainer_no_closers :
    ∀ (l : List Nat) (d : Nat) (inString esc : Bool),
      (∀ b ∈ l, b ≠ 125 ∧ b ≠ 93) →
      skipContainer (d + 1) inString esc l = none := by
  intro l
  induction l with
  | nil => intro d inString esc _; rfl
  | cons c r ih =>
    intro d inString esc h
    have hc := h c (List.mem_cons_self c r)
    have hr : ∀ b ∈ r, b ≠ 125 ∧ b ≠ 93 :=
      fun b hb => h b (List.mem_cons_of_mem c hb)
    cases inString with
    | true =>
      cases esc with
      | true => simpa [skipContainer] using ih d true false hr
      | false =>
        by_cases h92 : c = 92
        · simpa [skipContainer, h92] using ih d true true hr
        · by_cases h34 : c = 34
          · simpa [skipContainer, h92, h34] using ih d false false hr
          · simpa [skipContainer, h92, h34] using ih d true false hr
    | false =>
      by_cases h34 : c = 34
      · simpa [skipContainer, h34] using ih d true esc hr
      · by_cases hopen : c = 123 ∨ c = 91
        · have hstep : skipContainer (d + 1 + 1) false esc r = none :=
            ih (d + 1) false esc hr
          rcases hopen with h' | h' <;>
            simpa [skipContainer, h34, h'] using hstep
        · push_neg at hopen
          simpa [skipContainer, h34, hopen.1, hopen.2, hc.1, hc.2]
            using ih d false esc hr

theorem skipScalar_delim (c : Nat) (l : List Nat)
    (h : c = 44 ∨ c = 125 ∨ c = 93) : skipScalar c l = c :: l := by
  rcases h with h | h | h <;> subst h <;> rw [skipScalar.eq_def] <;> simp

theorem skipScalar_ws (c : Nat) (l : List Nat) (h : isSpaceByte c = true) :
    skipScalar c l = l := by
  have hno : c ≠ 44 ∧ c ≠ 125 ∧ c ≠ 93 := by
    have hx : c = 32 ∨ (9 ≤ c ∧ c ≤ 13) := by simpa [isSpaceByte] using h
    omega
  rw [skipScalar.eq_def]
  simp [hno.1, hno.2.1, hno.2.2, h]

theorem scalarByte_spec {b : Nat} (h : scalarByte b = true) :
    b ≠ 44 ∧ b ≠ 125 ∧ b ≠ 93 ∧ isSpaceByte b = false := by
  have hx : ((¬b = 44 ∧ ¬b = 125) ∧ ¬b = 93) ∧ isSpaceByte b = false := by
    simpa [scalarByte, not_or] using h
  exact ⟨hx.1.1.1, hx.1.1.2, hx.1.2, hx.2⟩

theorem skipScalar_step (c b : Nat) (r : List Nat) (hc : scalarByte c = true) :
    skipScalar c (b :: r) = skipScalar b r := by
  rcases scalarByte_spec hc with ⟨h1, h2, h3, h4⟩
  rw [skipScalar.eq_def]
  simp [h1, h2, h3, h4]

theorem skipScalar_all_scalar :
    ∀ (l : List Nat) (c : Nat), scalarByte c = true →
      (∀ b ∈ l, scalarByte b = true) → skipScalar c l = [] := by
  intro l
  induction l with
  | nil =>
    intro c hc _
    rcases scalarByte_spec hc with ⟨h1, h2, h3, h4⟩
    rw [skipScalar.eq_def]
    simp [h1, h2, h3, h4]
  | cons b r ih =>
    intro c hc h
    rw [skipScalar_step c b r hc]
    exact ih b (h b (List.mem_cons_self b r))
      (fun b' hb' => h b' (List.mem_cons_of_mem b hb'))

theorem skipScalar_append :
    ∀ (l1 : List Nat) (c : Nat) (d : Nat) (l2 : List Nat),
      scalarByte c = true → (∀ b ∈ l1, scalarByte b = true) →
      skipScalar c (l1 ++ d :: l2) = skipScalar d l2 := by
  intro l1
  induction l1 with
  | nil =>
    intro c d l2 hc _
    simpa using skipScalar_step c d l2 hc
  | cons b r ih =>
    intro c d l2 hc h
    rw [List.cons_append, skipScalar_step c b _ hc]
    exact ih b d l2 (h b (List.mem_cons_self b r))
      (fun b' hb' => h b' (List.mem_cons_of_mem b hb'))

theorem consume_scalar (first : Nat) (l : List Nat) (h34 : first ≠ 34)
    (h123 : first ≠ 123) (h91 : first ≠ 91) :
    consume_json_value first l = some (skipScalar first l) := by
  simp [consume_json_value, h34, h123, h91]

/-! ## Scan-to-fold correspondence -/

theorem scan_fold :
    ∀ (fuel : Nat) (s : List Nat) (t : HashTable) (n : Nat)
      (t' : HashTable) (n' : Nat),
      processLoopF fuel s t n = some (t', n') →
      ∃ vs : List (List Nat),
        t' = List.foldl table_inc t vs ∧
        n' = List.foldl (fun m _ => (m + 1) % U64) n vs := by
  intro fuel
  induction fuel with
  | zero =>
    intro s t n t' n' h
    simp [processLoopF] at h
  | succ fuel ih =>
    intro s t n t' n' h
    cases s with
    | nil =>
      simp only [processLoopF, Option.some.injEq, Prod.mk.injEq] at h
      exact ⟨[], by simp [h.1], by simp [h.2]⟩
    | cons c s =>
      by_cases hc : c = 34
      · subst hc
        simp only [processLoopF] at h
        rw [if_neg (fun hh => hh rfl)] at h
        split at h
        · exact absurd h (by simp)
        · split at h
          · split at h
            · simp only [Option.some.injEq, Prod.mk.injEq] at h
              exact ⟨[], by simp [h.1], by simp [h.2]⟩
            · split at h
              · split at h
                · exact absurd h (by simp)
                · rcases ih _ _ _ _ _ h with ⟨vs, hv1, hv2⟩
                  exact ⟨_ :: vs, by simpa using hv1, by simpa using hv2⟩
              · split at h
                · exact absurd h (by simp)
                · exact ih _ _ _ _ _ h
          · exact ih _ _ _ _ _ h
      · simp only [processLoopF, if_pos hc] at h
        exact ih _ _ _ _ _ h

/-! ## Claim theorems -/

set_option maxRecDepth 100000 in
/-- Claim C1 (counterexample): on the input
`[{"id":1,"serial":"A"},{"id":2,"model":"XYZ","serial":"B"},{"id":3,"nested":{"model":"RDV2"},"serial":"C"}]`
the run does NOT count the nested `RDV2` occurrence: its stored count is
0, not 1 as the claim asserts. -/
theorem claim_C1_counterexample :
    ¬ ((process_file nestedInput (table_init 4096) 0).map
        (fun p => get_count p.1 rdv2K) = some 1) ∧
    (process_file nestedInput (table_init 4096) 0).map
        (fun p => get_count p.1 rdv2K) = some 0 := by
  constructor
  · decide
  · decide

set_option maxRecDepth 100000 in
/-- Claim C1 (amended): a `model` key nested inside an object that is the
value of a different, non-target key is NOT recognized — the container skip
consumes the whole nested object.  On the concrete input the run yields
distinct count 1, `XYZ` count 1, `RDV2` count 0 (absent), and one value
seen, matching the repository's own unit test. -/
theorem claim_C1_amended :
    (process_file nestedInput (table_init 4096) 0).map
        (fun p => (p.1.size, get_count p.1 xyzK, get_count p.1 rdv2K,
          memTable p.1 rdv2K, p.2))
      = some (1, 1, 0, false, 1) := by
  decide

/-- Claim C2 (counterexample): after inserting exactly 3072 distinct keys
into a freshly initialized 4096-bucket table, `size * 4 = 12288 =
bucket_count * 3`, so the strict inequality `size * 4 < bucket_count * 3`
fails immediately after that insertion (the table grows only on the next
one). -/
theorem claim_C2_counterexample :
    ¬ ((List.foldl table_inc (table_init 4096) ((List.range 3072).map
        (fun i => List.replicate (i + 1) 97))).size * 4
      < (List.foldl table_inc (table_init 4096) ((List.range 3072).map
        (fun i => List.replicate (i + 1) 97))).bucket_count * 3) := by
  have hinj : Function.Injective
      (fun i : Nat => List.replicate (i + 1) (97 : Nat)) := by
    intro a b hab
    have := congrArg List.length hab
    simpa using this
  have hnd : ((List.range 3072).map
      (fun i => List.replicate (i + 1) (97 : Nat))).Nodup :=
    (List.nodup_range 3072).map hinj
  have hfresh : ∀ v ∈ (List.range 3072).map
      (fun i => List.replicate (i + 1) (97 : Nat)),
      memTable (table_init 4096) v = false :=
    fun v _ => memTable_init 4096 v
  have hlen : ((List.range 3072).map
      (fun i => List.replicate (i + 1) (97 : Nat))).length = 3072 := by
    rw [List.length_map, List.length_range]
  have hbound : ((table_init 4096).size + ((List.range 3072).map
      (fun i => List.replicate (i + 1) (97 : Nat))).length) * 4
      ≤ (table_init 4096).bucket_count * 3 := by
    rw [hlen]
    decide
  rcases fold_fresh _ (table_init 4096) (WF_init 4096 (by decide)) hnd hfresh
    hbound with ⟨hs, hb⟩
  rw [hs, hb, hlen]
  decide

/-- Claim C2 (amended): immediately after any sequence of increments from a
freshly initialized 4096-bucket table, `size * 4 ≤ bucket_count * 3` holds —
the load factor never exceeds 0.75, but it can momentarily equal 0.75
exactly; the table grows before the insertion that finds the threshold
already reached. -/
theorem claim_C2_amended (vs : List (List Nat)) :
    (List.foldl table_inc (table_init 4096) vs).size * 4
      ≤ (List.foldl table_inc (table_init 4096) vs).bucket_count * 3 :=
  load_fold vs (table_init 4096) (by decide) (by decide) (by decide)

set_option maxRecDepth 100000 in
/-- Claim C3: when a candidate key equals `model` but the byte opening its
value is not a double quote, the scanning iteration hands the table and the
values-seen counter unchanged to the value-skipping path (no emission, no
aggregator call, no counter bump); concretely, on
`[{"model":"RDV2"},{"model":123},{"model":"RDV2"},{"model":"ABC"}]` the
numeric occurrence contributes nothing: distinct count 2, `RDV2` 2,
`ABC` 1, three values seen. -/
theorem claim_C3 :
    (∀ (fuel : Nat) (s r1 r2 r3 key : List Nat) (v : Nat)
       (t : HashTable) (n : Nat),
      read_json_string s = some (key, r1) →
      skip_ws r1 = (some 58, r2) →
      skip_ws r2 = (some v, r3) →
      key = modelKey → v ≠ 34 →
      processLoopF (fuel + 1) (34 :: s) t n
        = (consume_json_value v r3).bind
            (fun r4 => processLoopF fuel r4 t n)) ∧
    (process_file numericInput (table_init 4096) 0).map
        (fun p => (p.1.size, get_count p.1 rdv2K, get_count p.1 abcK, p.2))
      = some (2, 2, 1, 3) := by
  constructor
  · intro fuel s r1 r2 r3 key v t n h1 h2 h3 hkey hv
    subst hkey
    cases hcv : consume_json_value v r3 with
    | none => simp [processLoopF, h1, h2, h3, hv, hcv]
    | some r4 => simp [processLoopF, h1, h2, h3, hv, hcv]
  · decide

/-- Claim C3 (witness): a concrete instance — candidate key `model`,
value starting with the digit `1` (byte 49). -/
theorem claim_C3_witness :
    read_json_string [109, 111, 100, 101, 108, 34, 58, 49, 50, 44]
      = some (modelKey, [58, 49, 50, 44]) ∧
    processLoopF 1 (34 :: [109, 111, 100, 101, 108, 34, 58, 49, 50, 44])
        (table_init 4096) 0
      = (consume_json_value 49 [50, 44]).bind
          (fun r4 => processLoopF 0 r4 (table_init 4096) 0) :=
  ⟨by decide,
   claim_C3.1 0 [109, 111, 100, 101, 108, 34, 58, 49, 50, 44]
     [58, 49, 50, 44] [49, 50, 44] [50, 44] modelKey 49 (table_init 4096) 0
     (by decide) (by decide) (by decide) rfl (by decide)⟩

/-- Claim C4 (counterexample): the stored count is a wrapping 64-bit
counter, so after exactly `2 ^ 64` increments of the same fresh value the
stored count is 0, not `2 ^ 64` — the claim's "exactly N for every N ≥ 1"
fails at N = 2 ^ 64. -/
theorem claim_C4_counterexample :
    get_count ((fun tt => table_inc tt [97])^[18446744073709551616]
      (table_init 4096)) [97] = 0 ∧
    (0 : Nat) ≠ 18446744073709551616 := by
  constructor
  · have h := (iterate_inc_spec (WF_init 4096 (by decide))
      [97] (memTable_init 4096 [97]) 18446744073709551616).2.1
    rw [h, U64, Nat.mod_self]
  · decide

/-- Claim C4 (amended): for every table not containing `v` and every
`1 ≤ N < 2 ^ 64`, incrementing `v` exactly `N` times stores count exactly
`N` (in general the count is `N mod 2 ^ 64`, since the `uint64_t` counter
wraps silently), and entries of every other key keep their count and
membership unchanged — distinct values never merge. -/
theorem claim_C4_amended (t : HashTable) (v : List Nat) (N : Nat)
    (hw : WF t) (hfresh : memTable t v = false) (_h1 : 1 ≤ N)
    (h2 : N < U64) :
    get_count ((fun tt => table_inc tt v)^[N] t) v = N ∧
    ∀ w, w ≠ v →
      get_count ((fun tt => table_inc tt v)^[N] t) w = get_count t w ∧
      memTable ((fun tt => table_inc tt v)^[N] t) w = memTable t w := by
  rcases iterate_inc_spec hw v hfresh N with ⟨_, hself, hoth⟩
  exact ⟨by rw [hself, Nat.mod_eq_of_lt h2], hoth⟩

set_option maxRecDepth 100000 in
/-- Claim C4 (witness): two increments of a fresh value on a fresh table
store count 2. -/
theorem claim_C4_witness :
    memTable (table_init 4096) [97] = false ∧
    get_count ((fun tt => table_inc tt [97])^[2] (table_init 4096)) [97]
      = 2 :=
  ⟨by decide,
   (claim_C4_amended (table_init 4096) [97] 2 (WF_init 4096 (by decide))
     (by decide) (by decide) (by decide)).1⟩

/-- Claim C5: growing the table preserves the multiset of (key, count)
pairs, leaves `size` unchanged, doubles `bucket_count`, and every key keeps
its membership and stored count — entries are redistributed, none is lost
or altered. -/
theorem claim_C5 (t : HashTable) (hw : WF t) :
    ((entries (table_rehash t)).map (fun e => (e.key, e.count))).Perm
      ((entries t).map (fun e => (e.key, e.count))) ∧
    (table_rehash t).size = t.size ∧
    (table_rehash t).bucket_count = t.bucket_count * 2 ∧
    (∀ k, memTable (table_rehash t) k = memTable t k ∧
      get_count (table_rehash t) k = get_count t k) :=
  ⟨(entries_rehash hw).map _, rehash_size t, rehash_bucket_count t,
   fun k => rehash_observers hw k⟩

/-- Claim C5 (witness): rehashing the table holding one entry preserves its
size and the count of the stored key. -/
theorem claim_C5_witness :
    (table_rehash (table_inc (table_init 4096) [97])).size
      = (table_inc (table_init 4096) [97]).size ∧
    get_count (table_rehash (table_inc (table_init 4096) [97])) [97]
      = get_count (table_inc (table_init 4096) [97]) [97] :=
  ⟨(claim_C5 (table_inc (table_init 4096) [97])
      (WF_inc (WF_init 4096 (by decide)) [97])).2.1,
   ((claim_C5 (table_inc (table_init 4096) [97])
      (WF_inc (WF_init 4096 (by decide)) [97])).2.2.2 [97]).2⟩

/-- Claim C6: an unterminated string literal makes the whole scan fail:
(1) a candidate-key literal with no unescaped closing quote before
end-of-stream fails the scan, whatever quote-free garbage precedes it;
(2) so does a value literal (decoded or skipped) after `"model":` or any
other key's colon; (3) the container skip returns failure when the stream
ends with positive depth; (4) a container value whose remaining stream has
no closing brace or bracket fails the whole scan. -/
theorem claim_C6 :
    (∀ (p l : List Nat) (t : HashTable) (n : Nat),
      (∀ b ∈ p, b ≠ 34) → hasClosingQuote l = false →
      process_file (p ++ 34 :: l) t n = none) ∧
    (∀ (fuel : Nat) (s r1 r2 r3 key : List Nat) (t : HashTable) (n : Nat),
      read_json_string s = some (key, r1) →
      skip_ws r1 = (some 58, r2) →
      skip_ws r2 = (some 34, r3) →
      hasClosingQuote r3 = false →
      processLoopF (fuel + 1) (34 :: s) t n = none) ∧
    (∀ (d : Nat) (inString esc : Bool),
      skipContainer (d + 1) inString esc [] = none) ∧
    (∀ (fuel : Nat) (s r1 r2 r3 key : List Nat) (v : Nat)
       (t : HashTable) (n : Nat),
      read_json_string s = some (key, r1) →
      skip_ws r1 = (some 58, r2) →
      skip_ws r2 = (some v, r3) →
      (v = 123 ∨ v = 91) →
      (∀ b ∈ r3, b ≠ 125 ∧ b ≠ 93) →
      processLoopF (fuel + 1) (34 :: s) t n = none) := by
  refine ⟨?_, ?_, ?_, ?_⟩
  · intro p
    induction p with
    | nil =>
      intro l t n _ hcl
      have hrn := read_json_string_none_of_no_close l hcl
      simp [process_file, processLoopF, hrn]
    | cons c p ih =>
      intro l t n hnq hcl
      have hc : c ≠ 34 := hnq c (List.mem_cons_self c p)
      have hrest : ∀ b ∈ p, b ≠ 34 :=
        fun b hb => hnq b (List.mem_cons_of_mem c hb)
      have hlen : (c :: (p ++ 34 :: l)).length + 1
          = ((p ++ 34 :: l).length + 1) + 1 := by simp
      rw [process_file, List.cons_append, hlen]
      simp only [processLoopF, if_pos hc]
      have := ih l t n hrest hcl
      rwa [process_file] at this
  · intro fuel s r1 r2 r3 key t n h1 h2 h3 hcl
    have hrn := read_json_string_none_of_no_close r3 hcl
    by_cases hk : key = modelKey <;>
      simp [processLoopF, h1, h2, h3, hk, hrn, consume_json_value]
  · intro d inString esc
    exact skipContainer_nil d inString esc
  · intro fuel s r1 r2 r3 key v t n h1 h2 h3 hv hno
    have hsc : skipContainer 1 false false r3 = none :=
      skipContainer_no_closers r3 0 false false hno
    rcases hv with h' | h' <;> subst h' <;>
      simp [processLoopF, h1, h2, h3, consume_json_value, hsc]

/-- Claim C6 (witness): the two-byte stream `"a` (a quote then `a`) fails
the whole scan. -/
theorem claim_C6_witness :
    hasClosingQuote [97] = false ∧
    process_file ([] ++ 34 :: [97]) (table_init 4096) 0 = none :=
  ⟨by decide,
   claim_C6.1 [] [97] (table_init 4096) 0 (by simp) (by decide)⟩

/-- Claim C7: string-escape decoding — `\uXXXX` with four hex digits is
accepted and contributes the placeholder byte `?` (63), never a code
point; a `\u` not followed by four hex digits (wrong digits or a too-short
stream) fails the decode; the eight named escapes decode to their literal
equivalents; and any other `\X` passes `X` through unchanged. -/
theorem claim_C7 :
    (∀ (h1 h2 h3 h4 : Nat) (r : List Nat),
      isHexDigitByte h1 = true → isHexDigitByte h2 = true →
      isHexDigitByte h3 = true → isHexDigitByte h4 = true →
      read_json_string (92 :: 117 :: h1 :: h2 :: h3 :: h4 :: r)
        = (read_json_string r).map (fun p => (63 :: p.1, p.2))) ∧
    (∀ (h1 h2 h3 h4 : Nat) (r : List Nat),
      (isHexDigitByte h1 && isHexDigitByte h2 && isHexDigitByte h3 &&
        isHexDigitByte h4) = false →
      read_json_string (92 :: 117 :: h1 :: h2 :: h3 :: h4 :: r) = none) ∧
    (∀ r : List Nat, r.length < 4 →
      read_json_string (92 :: 117 :: r) = none) ∧
    (∀ r : List Nat,
      read_json_string (92 :: 34 :: r)
        = (read_json_string r).map (fun p => (34 :: p.1, p.2)) ∧
      read_json_string (92 :: 92 :: r)
        = (read_json_string r).map (fun p => (92 :: p.1, p.2)) ∧
      read_json_string (92 :: 47 :: r)
        = (read_json_string r).map (fun p => (47 :: p.1, p.2)) ∧
      read_json_string (92 :: 98 :: r)
        = (read_json_string r).map (fun p => (8 :: p.1, p.2)) ∧
      read_json_string (92 :: 102 :: r)
        = (read_json_string r).map (fun p => (12 :: p.1, p.2)) ∧
      read_json_string (92 :: 110 :: r)
        = (read_json_string r).map (fun p => (10 :: p.1, p.2)) ∧
      read_json_string (92 :: 114 :: r)
        = (read_json_string r).map (fun p => (13 :: p.1, p.2)) ∧
      read_json_string (92 :: 116 :: r)
        = (read_json_string r).map (fun p => (9 :: p.1, p.2))) ∧
    (∀ (e : Nat) (r : List Nat), e ≠ 117 →
      read_json_string (92 :: e :: r)
        = (read_json_string r).map (fun p => (escChar e :: p.1, p.2))) ∧
    (∀ e : Nat, e ≠ 34 → e ≠ 92 → e ≠ 47 → e ≠ 98 → e ≠ 102 → e ≠ 110 →
      e ≠ 114 → e ≠ 116 → escChar e = e) := by
  refine ⟨?_, ?_, ?_, ?_, ?_, ?_⟩
  · intro h1 h2 h3 h4 r hh1 hh2 hh3 hh4
    rw [read_json_string.eq_def]
    simp [hh1, hh2, hh3, hh4]
  · intro h1 h2 h3 h4 r hcond
    rw [read_json_string.eq_def]
    simp [hcond]
  · intro r hr
    rcases r with _ | ⟨a, _ | ⟨b, _ | ⟨c, _ | ⟨d, r⟩⟩⟩⟩
    · rfl
    · rfl
    · rfl
    · rfl
    · exact absurd hr (by simp)
  · intro r
    refine ⟨?_, ?_, ?_, ?_, ?_, ?_, ?_, ?_⟩ <;>
      (rw [read_json_string.eq_def]; simp [escChar])
  · intro e r he
    rw [read_json_string.eq_def]
    simp [he]
  · intro e e34 e92 e47 e98 e102 e110 e114 e116
    simp [escChar, e34, e92, e47, e98, e102, e110, e114, e116]

/-- Claim C7 (witness): `\u0000` decodes to `?` before the closing quote;
`\u0` at end of stream fails. -/
theorem claim_C7_witness :
    isHexDigitByte 48 = true ∧
    read_json_string [92, 117, 48, 48, 48, 48, 34]
      = (read_json_string [34]).map (fun p => (63 :: p.1, p.2)) ∧
    read_json_string [92, 117, 48] = none :=
  ⟨by decide,
   claim_C7.1 48 48 48 48 [34] (by decide) (by decide) (by decide)
     (by decide),
   claim_C7.2.2.1 [48] (by decide)⟩

/-- Claim C8: when the stream ends in the whitespace after a candidate
key's colon, the scan returns success with the table and the values-seen
counter exactly as they were when that candidate key was reached. -/
theorem claim_C8 :
    (∀ (fuel : Nat) (s r1 r2 w key : List Nat) (t : HashTable) (n : Nat),
      read_json_string s = some (key, r1) →
      skip_ws r1 = (some 58, r2) →
      skip_ws r2 = (none, w) →
      processLoopF (fuel + 1) (34 :: s) t n = some (t, n)) ∧
    (∀ (s r1 r2 w key : List Nat) (t : HashTable) (n : Nat),
      read_json_string s = some (key, r1) →
      skip_ws r1 = (some 58, r2) →
      skip_ws r2 = (none, w) →
      process_file (34 :: s) t n = some (t, n)) := by
  have hmain : ∀ (fuel : Nat) (s r1 r2 w key : List Nat) (t : HashTable)
      (n : Nat), read_json_string s = some (key, r1) →
      skip_ws r1 = (some 58, r2) → skip_ws r2 = (none, w) →
      processLoopF (fuel + 1) (34 :: s) t n = some (t, n) := by
    intro fuel s r1 r2 w key t n h1 h2 h3
    simp [processLoopF, h1, h2, h3]
  exact ⟨hmain, fun s r1 r2 w key t n h1 h2 h3 =>
    hmain ((34 :: s).length) s r1 r2 w key t n h1 h2 h3⟩

/-- Claim C8 (witness): the stream `"k" : ` (trailing whitespace after the
colon) scans to success with an untouched table and counter. -/
theorem claim_C8_witness :
    read_json_string [107, 34, 32, 58, 32, 32]
      = some ([107], [32, 58, 32, 32]) ∧
    process_file (34 :: [107, 34, 32, 58, 32, 32]) (table_init 4096) 0
      = some (table_init 4096, 0) :=
  ⟨by decide,
   claim_C8.2 [107, 34, 32, 58, 32, 32] [32, 58, 32, 32] [32, 32] []
     [107] (table_init 4096) 0 (by decide) (by decide) (by decide)⟩

/-- Claim C9: skipping a value whose first byte is not a quote, `{` or `[`
never fails; it consumes bytes up to the first delimiter (`,`, `}`, `]`)
or whitespace — a delimiter is pushed back onto the stream, whitespace is
consumed, and end-of-stream simply stops the skip. -/
theorem claim_C9 :
    (∀ (v : Nat) (l : List Nat), v ≠ 34 → v ≠ 123 → v ≠ 91 →
      consume_json_value v l = some (skipScalar v l)) ∧
    (∀ (v d : Nat) (l1 l2 : List Nat),
      v ≠ 34 → v ≠ 123 → v ≠ 91 →
      scalarByte v = true → (∀ b ∈ l1, scalarByte b = true) →
      (d = 44 ∨ d = 125 ∨ d = 93) →
      consume_json_value v (l1 ++ d :: l2) = some (d :: l2)) ∧
    (∀ (v d : Nat) (l1 l2 : List Nat),
      v ≠ 34 → v ≠ 123 → v ≠ 91 →
      scalarByte v = true → (∀ b ∈ l1, scalarByte b = true) →
      isSpaceByte d = true →
      consume_json_value v (l1 ++ d :: l2) = some l2) ∧
    (∀ (v : Nat) (l1 : List Nat),
      v ≠ 34 → v ≠ 123 → v ≠ 91 →
      scalarByte v = true → (∀ b ∈ l1, scalarByte b = true) →
      consume_json_value v l1 = some []) ∧
    (∀ (v : Nat) (l : List Nat), (v = 44 ∨ v = 125 ∨ v = 93) →
      consume_json_value v l = some (v :: l)) := by
  refine ⟨?_, ?_, ?_, ?_, ?_⟩
  · intro v l h34 h123 h91
    exact consume_scalar v l h34 h123 h91
  · intro v d l1 l2 h34 h123 h91 hv hall hd
    rw [consume_scalar v _ h34 h123 h91, skipScalar_append l1 v d l2 hv hall,
      skipScalar_delim d l2 hd]
  · intro v d l1 l2 h34 h123 h91 hv hall hd
    rw [consume_scalar v _ h34 h123 h91, skipScalar_append l1 v d l2 hv hall,
      skipScalar_ws d l2 hd]
  · intro v l1 h34 h123 h91 hv hall
    rw [consume_scalar v _ h34 h123 h91, skipScalar_all_scalar l1 v hv hall]
  · intro v l hv
    have h34 : v ≠ 34 := by rcases hv with h | h | h <;> omega
    have h123 : v ≠ 123 := by rcases hv with h | h | h <;> omega
    have h91 : v ≠ 91 := by rcases hv with h | h | h <;> omega
    rw [consume_scalar v l h34 h123 h91, skipScalar_delim v l hv]

/-- Claim C9 (witness): skipping `12,` pushes the comma back; byte 49 is
the digit `1`. -/
theorem claim_C9_witness :
    scalarByte 49 = true ∧
    consume_json_value 49 ([50] ++ 44 :: [125]) = some (44 :: [125]) :=
  ⟨by decide,
   claim_C9.2.1 49 44 [50] [125] (by decide) (by decide) (by decide)
     (by decide) (by decide) (by decide)⟩

/-- Claim C10: after every successful scan from a fresh table and a zero
counter, the sum of all stored counts taken modulo `2 ^ 64` equals the
final values-seen counter, and there is a list of emitted values `vs` such
that the final table is exactly the fold of single increments over `vs`
(the aggregator is touched once per emission and by nothing else), the
counter is `vs.length mod 2 ^ 64`, and the table's size is the number of
distinct emitted values. -/
theorem claim_C10 (s : List Nat) (t' : HashTable) (n' : Nat)
    (h : process_file s (table_init 4096) 0 = some (t', n')) :
    sumCounts t' % U64 = n' ∧
    ∃ vs : List (List Nat),
      t' = List.foldl table_inc (table_init 4096) vs ∧
      n' = vs.length % U64 ∧
      t'.size = vs.dedup.length := by
  rcases scan_fold _ _ _ _ _ _ h with ⟨vs, hv1, hv2⟩
  have hw0 := WF_init 4096 (by decide)
  have hn : n' = vs.length % U64 := by
    rw [hv2]
    have := counter_fold vs 0 (by decide)
    simpa using this
  refine ⟨?_, vs, hv1, hn, ?_⟩
  · rw [hv1, sumCounts_fold vs _ hw0, sumCounts_init]
    simpa using hn.symm
  · rw [hv1, size_fold_distinct 4096 (by decide) vs]

set_option maxRecDepth 100000 in
/-- Claim C10 (witness): scanning `[]` succeeds with an empty table, zero
counter, and count-sum zero. -/
theorem claim_C10_witness :
    process_file [91, 93] (table_init 4096) 0 = some (table_init 4096, 0) ∧
    sumCounts (table_init 4096) % U64 = 0 :=
  ⟨rfl, (claim_C10 [91, 93] (table_init 4096) 0 rfl).1⟩

end ModelCount
